import Mathlib

/-!
Verification model for the chromadb-demo repository.

The repository scripts (src/step2 … step6) drive an embedded vector
database through its public API: collections, document CRUD, nearest
neighbour queries, persistence.  The operative data-store code is the
third-party library itself, so the store is reconstructed here from the
specification document (sections 2-4 and 6-8): a minimal document store
with upsert semantics and k-nearest-neighbour search.  Every definition
whose doc comment begins with `Modelled from the spec:` embeds that
reconstruction; concrete ids, texts and query strings come from the
repository scripts.
-/

namespace ChromaSpec

/-- Modelled from the spec: metadata values are loosely-typed scalars —
strings, numbers, booleans — mapped to a tagged union (spec section 9). -/
inductive MetaValue where
  | str (v : String)
  | num (v : Int)
  | boolean (v : Bool)
  deriving Repr, DecidableEq

/-- Metadata is a mapping from string keys to scalar values (spec section 3). -/
abbrev Metadata := List (String × MetaValue)

/-- Modelled from the spec: a document has an id (unique within its
collection), text, metadata, and an embedding vector (spec section 3).
Vectors are modelled as lists of integers: the claims to be settled depend
only on equality and ordering of vectors and distances, for which the
integers are a faithful executable carrier of float components. -/
structure Document where
  id : String
  text : String
  metadata : Metadata
  vector : List Int
  deriving Repr, DecidableEq

/-- Modelled from the spec: an EmbeddingProvider maps a text to a vector;
remote providers may fail (network/auth), modelled by `none` (spec 4.1). -/
abbrev Provider := String → Option (List Int)

/-- Modelled from the spec: the error kinds of spec section 7. -/
inductive DBError where
  | notFound
  | alreadyExists
  | embeddingFailure
  | dimensionMismatch
  deriving Repr, DecidableEq

/-- Modelled from the spec: a collection binds a name to a document store
keyed by id (spec sections 2-3); documents are kept in insertion order. -/
structure Collection where
  name : String
  docs : List Document
  deriving Repr, DecidableEq

/-- Embed a batch of texts; fails as a whole when any single embedding
fails (spec 4.1: one vector per input text, same order). -/
def embedTexts (p : Provider) : List String → Option (List (List Int))
  | [] => some []
  | t :: ts =>
    match p t, embedTexts p ts with
    | some v, some vs => some (v :: vs)
    | _, _ => none

/-- Zip ids, texts, metadatas and vectors into documents (positional,
like the library API). -/
def mkDocs : List String → List String → List Metadata → List (List Int) → List Document
  | i :: is, t :: ts, m :: ms, v :: vs => ⟨i, t, m, v⟩ :: mkDocs is ts ms vs
  | _, _, _, _ => []

/-- Whether a document with the given id is stored. -/
def Collection.hasId (c : Collection) (i : String) : Bool :=
  c.docs.any (fun d => d.id == i)

/-- Modelled from the spec: `count()` is the current document count (spec 4.3). -/
def Collection.count (c : Collection) : Nat :=
  c.docs.length

/-- First stored document with the given id, if any. -/
def Collection.findDoc (c : Collection) (i : String) : Option Document :=
  c.docs.find? (fun d => d.id == i)

/-- Modelled from the spec: `get(ids?)` returns all documents, or the
subset matching the given ids, in stable (stored) order (spec 4.3). -/
def Collection.get (c : Collection) (ids : Option (List String)) : List Document :=
  match ids with
  | none => c.docs
  | some l => c.docs.filter (fun d => l.contains d.id)

/-- Modelled from the spec: `add` fails with AlreadyExists if any id
already exists, computes vectors via the provider, and inserts atomically
as a batch — all documents or none (spec 4.3, section 7). -/
def Collection.add (p : Provider) (c : Collection) (ids texts : List String)
    (metas : List Metadata) : Except DBError Collection :=
  if ids.any (fun i => c.hasId i) then .error .alreadyExists
  else
    match embedTexts p texts with
    | none => .error .embeddingFailure
    | some vs => .ok { c with docs := c.docs ++ mkDocs ids texts metas vs }

/-- Insert one document, replacing an existing document with the same id
in place (spec 4.3 upsert). -/
def Collection.upsertDoc (c : Collection) (d : Document) : Collection :=
  if c.hasId d.id then
    { c with docs := c.docs.map (fun e => if e.id == d.id then d else e) }
  else
    { c with docs := c.docs ++ [d] }

/-- Modelled from the spec: `upsert` is like add but replaces existing ids
in place instead of failing (spec 4.3). -/
def Collection.upsert (p : Provider) (c : Collection) (ids texts : List String)
    (metas : List Metadata) : Except DBError Collection :=
  match embedTexts p texts with
  | none => .error .embeddingFailure
  | some vs => .ok ((mkDocs ids texts metas vs).foldl Collection.upsertDoc c)

/-- Modelled from the spec: `delete(ids)` removes matching documents; ids
not present are silently ignored (spec 4.3, section 7). -/
def Collection.del (c : Collection) (ids : List String) : Collection :=
  { c with docs := c.docs.filter (fun d => !(ids.contains d.id)) }

/-! ### VectorIndex -/

/-- Modelled from the spec: a VectorIndex stores id/vector pairs in
insertion order (spec 4.2). -/
abbrev VectorIndex := List (String × List Int)

/-- The vector index induced by a collection. -/
def Collection.index (c : Collection) : VectorIndex :=
  c.docs.map (fun d => (d.id, d.vector))

/-- Squared Euclidean distance between two vectors.  The spec fixes one
metric per index (cosine or Euclidean); squared Euclidean is used here, a
strictly monotone transform of Euclidean distance, so it induces the same
ordering of search results while staying within the integers. -/
def sqDist (v w : List Int) : Int :=
  ((v.zip w).map (fun q => (q.1 - q.2) * (q.1 - q.2))).sum

/-- Ordering of search entries by their distance component. -/
def distLE (a b : String × Int) : Prop :=
  a.2 ≤ b.2

instance : DecidableRel distLE :=
  fun a b => inferInstanceAs (Decidable (a.2 ≤ b.2))

instance : IsTotal (String × Int) distLE :=
  ⟨fun a b => le_total a.2 b.2⟩

instance : IsTrans (String × Int) distLE :=
  ⟨fun _ _ _ h h2 => le_trans h h2⟩

/-- Annotate every index entry with its distance to the query vector. -/
def annotate (idx : VectorIndex) (q : List Int) : List (String × Int) :=
  idx.map (fun e => (e.1, sqDist q e.2))

/-- Modelled from the spec: `search(query_vector, k)` returns up to k
entries sorted by ascending distance, ties broken by insertion order
(stable insertion sort); `k ≤ 0` yields the empty result and `k` larger
than the index size returns all entries (spec 4.2). -/
def VectorIndex.search (idx : VectorIndex) (q : List Int) (k : Int) : List (String × Int) :=
  ((annotate idx q).insertionSort distLE).take k.toNat

/-! ### Query -/

/-- Modelled from the spec: a query-result entry carries document id,
distance, metadata and text (spec section 3, QueryResult). -/
structure QEntry where
  id : String
  distance : Int
  metadata : Metadata
  text : String
  deriving Repr, DecidableEq

/-- Join a search hit back with its stored document. -/
def Collection.toQEntry (c : Collection) (e : String × Int) : QEntry :=
  match c.findDoc e.1 with
  | some d => ⟨e.1, e.2, d.metadata, d.text⟩
  | none => ⟨e.1, e.2, [], ""⟩

/-- Query with a single text: embed it and search the index (spec 4.3). -/
def Collection.queryOne (p : Provider) (c : Collection) (t : String) (k : Int) :
    Option (List QEntry) :=
  (p t).map (fun qv => (VectorIndex.search c.index qv k).map c.toQEntry)

/-- Modelled from the spec: `query(query_texts, n_results)` embeds each
query text, runs VectorIndex.search per query, and returns one
QueryResult per query text, independent of each other (spec 4.3). -/
def Collection.query (p : Provider) (c : Collection) (ts : List String) (k : Int) :
    Except DBError (List (List QEntry)) :=
  match embedTexts p ts with
  | none => .error .embeddingFailure
  | some qvs =>
    .ok (qvs.map (fun qv => (VectorIndex.search c.index qv k).map c.toQEntry))

/-! ### Registry -/

/-- Modelled from the spec: a Registry maps collection names to
collections, kept in creation order (spec 4.4). -/
structure Registry where
  colls : List Collection
  deriving Repr, DecidableEq

/-- First collection with the given name, if any. -/
def Registry.findColl (r : Registry) (n : String) : Option Collection :=
  r.colls.find? (fun c => c.name == n)

/-- Whether a collection with the given name exists. -/
def Registry.hasColl (r : Registry) (n : String) : Bool :=
  r.colls.any (fun c => c.name == n)

/-- Modelled from the spec: `get_or_create(name)` is idempotent — it
returns the existing collection or creates an empty one (spec 4.4). -/
def Registry.getOrCreate (r : Registry) (n : String) : Collection × Registry :=
  match r.findColl n with
  | some c => (c, r)
  | none => (⟨n, []⟩, ⟨r.colls ++ [⟨n, []⟩]⟩)

/-- Modelled from the spec: `get(name)` fails with NotFound if absent (spec 4.4). -/
def Registry.getColl (r : Registry) (n : String) : Except DBError Collection :=
  match r.findColl n with
  | some c => .ok c
  | none => .error .notFound

/-- Modelled from the spec: `delete(name)` removes the collection and all
its documents; NotFound if absent (spec 4.4). -/
def Registry.deleteColl (r : Registry) (n : String) : Except DBError Registry :=
  if r.hasColl n then .ok ⟨r.colls.filter (fun c => c.name != n)⟩
  else .error .notFound

/-- Rename every collection called `oldN` to `newN`, in place. -/
def Registry.renameAll (r : Registry) (oldN newN : String) : Registry :=
  ⟨r.colls.map (fun c => if c.name == oldN then { c with name := newN } else c)⟩

/-- Modelled from the spec: `modify(name)` renames a collection in place;
fails with AlreadyExists when the new name collides with an existing
collection, NotFound when the collection being renamed is absent
(spec 4.3, section 7). -/
def Registry.modifyName (r : Registry) (oldN newN : String) : Except DBError Registry :=
  if r.hasColl newN then .error .alreadyExists
  else
    match r.findColl oldN with
    | none => .error .notFound
    | some _ => .ok (r.renameAll oldN newN)

/-- Apply a document operation to the named collection, leaving every
other collection untouched. -/
def Registry.withColl (r : Registry) (n : String)
    (f : Collection → Except DBError Collection) : Except DBError Registry :=
  match r.findColl n with
  | none => .error .notFound
  | some c =>
    (f c).map (fun c2 => ⟨r.colls.map (fun e => if e.name == n then c2 else e)⟩)

/-- `add` addressed through the registry. -/
def Registry.addDocs (p : Provider) (r : Registry) (n : String) (ids texts : List String)
    (metas : List Metadata) : Except DBError Registry :=
  r.withColl n (fun c => c.add p ids texts metas)

/-- `upsert` addressed through the registry. -/
def Registry.upsertDocs (p : Provider) (r : Registry) (n : String) (ids texts : List String)
    (metas : List Metadata) : Except DBError Registry :=
  r.withColl n (fun c => c.upsert p ids texts metas)

/-- `delete` addressed through the registry. -/
def Registry.deleteDocs (r : Registry) (n : String) (ids : List String) :
    Except DBError Registry :=
  r.withColl n (fun c => .ok (c.del ids))

/-- `query` addressed through the registry; a read — the returned registry
is the input one, unchanged. -/
def Registry.queryDocs (p : Provider) (r : Registry) (n : String) (ts : List String) (k : Int) :
    Except DBError (List (List QEntry) × Registry) :=
  match r.findColl n with
  | none => .error .notFound
  | some c => (c.query p ts k).map (fun res => (res, r))

end ChromaSpec

namespace ChromaSpec

/-! ### Helper lemmas: embedding -/

theorem embedTexts_length (p : Provider) (ts : List String) (vs : List (List Int))
    (h : embedTexts p ts = some vs) : vs.length = ts.length := by
  induction ts generalizing vs with
  | nil => simp [embedTexts] at h; simp [← h]
  | cons t ts ih =>
    simp only [embedTexts] at h
    cases hp : p t with
    | none => rw [hp] at h; simp at h
    | some v =>
      rw [hp] at h
      cases he : embedTexts p ts with
      | none => rw [he] at h; simp at h
      | some ws =>
        rw [he] at h
        simp only [Option.some.injEq] at h
        subst h
        simp [ih ws he]

theorem embedTexts_get (p : Provider) (ts : List String) (vs : List (List Int))
    (h : embedTexts p ts = some vs) :
    ∀ i (hi : i < ts.length) (hi2 : i < vs.length),
      p (ts.get ⟨i, hi⟩) = some (vs.get ⟨i, hi2⟩) := by
  induction ts generalizing vs with
  | nil => intro i hi; simp at hi
  | cons t ts ih =>
    simp only [embedTexts] at h
    cases hp : p t with
    | none => rw [hp] at h; simp at h
    | some v =>
      rw [hp] at h
      cases he : embedTexts p ts with
      | none => rw [he] at h; simp at h
      | some ws =>
        rw [he] at h
        simp only [Option.some.injEq] at h
        subst h
        intro i hi hi2
        cases i with
        | zero => simpa using hp
        | succ j =>
          simp only [List.get_cons_succ]
          exact ih ws he j (Nat.lt_of_succ_lt_succ hi) (Nat.lt_of_succ_lt_succ hi2)

/-! ### Helper lemmas: search -/

theorem search_sorted (idx : VectorIndex) (q : List Int) (k : Int) :
    List.Sorted distLE (VectorIndex.search idx q k) :=
  List.Pairwise.sublist (List.take_sublist _ _) (List.sorted_insertionSort distLE _)

theorem search_length (idx : VectorIndex) (q : List Int) (k : Int) :
    (VectorIndex.search idx q k).length = min k.toNat idx.length := by
  unfold VectorIndex.search
  rw [List.length_take, (List.perm_insertionSort distLE _).length_eq]
  simp [annotate]

theorem search_eq_nil_of_nonpos (idx : VectorIndex) (q : List Int) (k : Int)
    (hk : k ≤ 0) : VectorIndex.search idx q k = [] := by
  unfold VectorIndex.search
  rw [Int.toNat_eq_zero.mpr hk, List.take_zero]

theorem search_all_of_le (idx : VectorIndex) (q : List Int) (k : Int)
    (hk : (idx.length : Int) ≤ k) :
    (VectorIndex.search idx q k).Perm (annotate idx q) := by
  have hk0 : (0 : Int) ≤ k := le_trans (Int.ofNat_nonneg _) hk
  have hlen : ((annotate idx q).insertionSort distLE).length = idx.length := by
    rw [(List.perm_insertionSort distLE _).length_eq]; simp [annotate]
  have htake : ((annotate idx q).insertionSort distLE).take k.toNat
      = (annotate idx q).insertionSort distLE := by
    apply List.take_of_length_le
    rw [hlen]
    exact (Int.le_toNat hk0).mpr hk
  unfold VectorIndex.search
  rw [htake]
  exact List.perm_insertionSort distLE _

theorem filter_orderedInsert (d : Int) (a : String × Int) (l : List (String × Int)) :
    (l.orderedInsert distLE a).filter (fun e => e.2 == d)
      = if a.2 == d then a :: l.filter (fun e => e.2 == d)
        else l.filter (fun e => e.2 == d) := by
  induction l with
  | nil =>
    by_cases had : (a.2 == d) = true
    · simp [List.orderedInsert, List.filter, had]
    · simp [List.orderedInsert, List.filter, had]
  | cons b t ih =>
    by_cases hab : distLE a b
    · by_cases had : (a.2 == d) = true
      · simp [List.orderedInsert, if_pos hab, List.filter, had]
      · simp [List.orderedInsert, if_pos hab, List.filter, had]
    · have hba : b.2 < a.2 := lt_of_not_le (fun h => hab h)
      by_cases hbd : (b.2 == d) = true
      · have hbd2 : b.2 = d := eq_of_beq hbd
        have had : ¬ (a.2 == d) = true := by
          intro had2
          have h3 : a.2 = d := eq_of_beq had2
          rw [hbd2, ← h3] at hba
          exact lt_irrefl a.2 hba
        simp [List.orderedInsert, if_neg hab, List.filter, hbd, had, ih]
      · simp only [Bool.not_eq_true] at hbd
        by_cases had : (a.2 == d) = true
        · simp [List.orderedInsert, if_neg hab, List.filter, hbd, had, ih]
        · simp [List.orderedInsert, if_neg hab, List.filter, hbd, had, ih]

theorem filter_insertionSort (d : Int) (l : List (String × Int)) :
    (l.insertionSort distLE).filter (fun e => e.2 == d) = l.filter (fun e => e.2 == d) := by
  induction l with
  | nil => rfl
  | cons a t ih =>
    by_cases had : (a.2 == d) = true
    · simp [List.insertionSort, filter_orderedInsert, had, ih, List.filter]
    · simp [List.insertionSort, filter_orderedInsert, had, ih, List.filter]

theorem toQEntry_distance (c : Collection) (e : String × Int) :
    (c.toQEntry e).distance = e.2 := by
  cases h : c.findDoc e.1 <;> simp [Collection.toQEntry, h]

theorem toQEntry_id (c : Collection) (e : String × Int) :
    (c.toQEntry e).id = e.1 := by
  cases h : c.findDoc e.1 <;> simp [Collection.toQEntry, h]

/-- C9: for every VectorIndex state and query vector, `search(query_vector, k)`
returns up to k entries sorted by ascending distance (first conjunct; length
is exactly `min k (index size)`, second conjunct), ties broken by insertion
order (stable sort: the entries at any fixed distance keep their index order
— fifth conjunct), the empty result when `k ≤ 0` (third conjunct), and all
stored entries when `k` is at least the index size (fourth conjunct). -/
theorem search_spec (idx : VectorIndex) (q : List Int) (k : Int) :
    List.Sorted distLE (VectorIndex.search idx q k)
    ∧ (VectorIndex.search idx q k).length = min k.toNat idx.length
    ∧ (k ≤ 0 → VectorIndex.search idx q k = [])
    ∧ ((idx.length : Int) ≤ k → (VectorIndex.search idx q k).Perm (annotate idx q))
    ∧ (∀ d : Int, ((annotate idx q).insertionSort distLE).filter (fun e => e.2 == d)
        = (annotate idx q).filter (fun e => e.2 == d)) :=
  ⟨search_sorted idx q k, search_length idx q k, search_eq_nil_of_nonpos idx q k,
    search_all_of_le idx q k, fun d => filter_insertionSort d (annotate idx q)⟩

theorem search_spec_witness :
    VectorIndex.search [("a", [0]), ("b", [1])] [0] (-1) = []
    ∧ (VectorIndex.search [("a", [0]), ("b", [1])] [0] 5).Perm
        (annotate [("a", [0]), ("b", [1])] [0]) :=
  ⟨(search_spec [("a", [0]), ("b", [1])] [0] (-1)).2.2.1 (by decide),
   (search_spec [("a", [0]), ("b", [1])] [0] 5).2.2.2.1 (by decide)⟩

/-- C1: for every collection state and list of query texts,
`query(query_texts, n_results)` returns exactly one QueryResult per query
text (first conjunct), each determined by that query text alone via
`queryOne` (second conjunct, independence), and each QueryResult is ordered
by non-decreasing distance with length at most `n_results` (third
conjunct). -/
theorem query_spec (p : Provider) (c : Collection) (ts : List String) (k : Int)
    (res : List (List QEntry)) (hk : 0 ≤ k)
    (h : c.query p ts k = .ok res) :
    res.length = ts.length
    ∧ (∀ i (hi : i < ts.length) (hi2 : i < res.length),
        c.queryOne p (ts.get ⟨i, hi⟩) k = some (res.get ⟨i, hi2⟩))
    ∧ (∀ qr ∈ res, List.Sorted (fun a b : QEntry => a.distance ≤ b.distance) qr
        ∧ (qr.length : Int) ≤ k) := by
  unfold Collection.query at h
  cases he : embedTexts p ts with
  | none => rw [he] at h; exact absurd h (by simp)
  | some qvs =>
    rw [he] at h
    simp only [Except.ok.injEq] at h
    subst h
    refine ⟨?_, ?_, ?_⟩
    · rw [List.length_map]
      exact embedTexts_length p ts qvs he
    · intro i hi hi2
      have hiq : i < qvs.length := by
        have := embedTexts_length p ts qvs he
        omega
      unfold Collection.queryOne
      rw [embedTexts_get p ts qvs he i hi hiq]
      simp only [Option.map_some']
      congr 1
      rw [List.get_map]
    · intro qr hqr
      rw [List.mem_map] at hqr
      obtain ⟨qv, _, hqv⟩ := hqr
      subst hqv
      constructor
      · exact List.Pairwise.map _
          (fun a b hab => by
            simpa [toQEntry_distance] using hab)
          (search_sorted c.index qv k)
      · rw [List.length_map, search_length]
        have h1 : min k.toNat c.index.length ≤ k.toNat := Nat.min_le_left _ _
        calc ((min k.toNat c.index.length : Nat) : Int)
            ≤ (k.toNat : Int) := by exact_mod_cast h1
          _ = k := Int.toNat_of_nonneg hk

theorem query_spec_witness :
    ([[({ id := "d1", distance := 1, metadata := [], text := "x" } : QEntry)]]).length
      = (["hello"] : List String).length :=
  (query_spec (fun _ => some [(1 : Int)]) ⟨"t", [⟨"d1", "x", [], [0]⟩]⟩ ["hello"] 1
      [[⟨"d1", 1, [], "x"⟩]] (by decide) (by rfl)).1

/-! ### Helper lemmas: upsert -/

theorem filter_id_eq_nil_of_absent (docs : List Document) (i : String)
    (f : Document → Document) (hf : ∀ e, e.id ≠ i → f e = e)
    (habs : ∀ e ∈ docs, e.id ≠ i) :
    (docs.map f).filter (fun e => e.id == i) = [] := by
  rw [List.filter_eq_nil_iff]
  intro x hx
  rw [List.mem_map] at hx
  obtain ⟨e, he, hfe⟩ := hx
  rw [hf e (habs e he)] at hfe
  subst hfe
  simp [habs e he]

theorem filter_replace (docs : List Document) (i : String) (d : Document) (hd : d.id = i)
    (hnd : (docs.map Document.id).Nodup)
    (hhas : docs.any (fun e => e.id == i) = true) :
    (docs.map (fun e => if e.id == i then d else e)).filter (fun e => e.id == i) = [d] := by
  induction docs with
  | nil => simp at hhas
  | cons e rest ih =>
    simp only [List.map_cons, List.nodup_cons] at hnd
    by_cases he : (e.id == i) = true
    · have hei : e.id = i := eq_of_beq he
      have habs : ∀ x ∈ rest, x.id ≠ i := by
        intro x hx hxi
        apply hnd.1
        rw [hei, ← hxi]
        exact List.mem_map_of_mem Document.id hx
      simp only [List.map_cons, if_pos he, List.filter]
      have hdid : (d.id == i) = true := by simp [hd]
      rw [hdid]
      rw [filter_id_eq_nil_of_absent rest i _ (fun x hx => by simp [hx]) habs]
    · simp only [List.map_cons, if_neg he, List.filter]
      rw [Bool.not_eq_true] at he
      rw [he]
      apply ih hnd.2
      simp only [List.any_cons, he, Bool.false_or] at hhas
      exact hhas

theorem map_id_replace (docs : List Document) (i : String) (d : Document) (hd : d.id = i) :
    (docs.map (fun e => if e.id == i then d else e)).map Document.id
      = docs.map Document.id := by
  rw [List.map_map]
  apply List.map_congr_left
  intro e _
  by_cases he : (e.id == i) = true
  · rw [Function.comp_apply, if_pos he, hd, eq_of_beq he]
  · rw [Function.comp_apply, if_neg he]

/-- C2: after an upsert of an id with new text and metadata, `get` for that
id returns exactly the new document (first conjunct, so never the prior
version); upsert of a present id replaces in place — same id sequence, same
count — rather than failing (second conjunct), and upsert of an absent id
appends it (third conjunct). -/
theorem contains_singleton (i x : String) : ([i].contains x) = (x == i) := by
  cases h : x == i <;> simp [List.contains, List.elem, h]

theorem upsert_then_get (p : Provider) (c c2 : Collection) (i t : String) (m : Metadata)
    (v : List Int) (hp : p t = some v)
    (hnd : (c.docs.map Document.id).Nodup)
    (h : c.upsert p [i] [t] [m] = .ok c2) :
    c2.get (some [i]) = [⟨i, t, m, v⟩]
    ∧ (c.hasId i = true → c2.docs.map Document.id = c.docs.map Document.id
        ∧ c2.count = c.count)
    ∧ (c.hasId i = false → c2.docs = c.docs ++ [⟨i, t, m, v⟩]) := by
  have hembed : embedTexts p [t] = some [v] := by simp [embedTexts, hp]
  unfold Collection.upsert at h
  rw [hembed] at h
  simp only [mkDocs, List.foldl_cons, List.foldl_nil, Except.ok.injEq] at h
  subst h
  unfold Collection.upsertDoc
  by_cases hhas : Collection.hasId c i = true
  · rw [if_pos (by simpa using hhas)]
    refine ⟨?_, fun _ => ⟨?_, ?_⟩, fun hcon => absurd hhas (by simp [hcon])⟩
    · show List.filter _ _ = _
      rw [List.filter_congr (fun e _ => contains_singleton i e.id)]
      exact filter_replace c.docs i ⟨i, t, m, v⟩ rfl hnd (by simpa [Collection.hasId] using hhas)
    · exact map_id_replace c.docs i ⟨i, t, m, v⟩ rfl
    · show (List.map _ _).length = _
      rw [List.length_map]
      rfl
  · rw [Bool.not_eq_true] at hhas
    rw [if_neg (by simp [hhas])]
    refine ⟨?_, fun hcon => absurd hcon (by simp [hhas]), fun _ => rfl⟩
    show List.filter _ _ = _
    rw [List.filter_congr (fun e _ => contains_singleton i e.id), List.filter_append]
    have h1 : c.docs.filter (fun e => e.id == i) = [] := by
      rw [List.filter_eq_nil_iff]
      intro e he hcon
      have h2 : Collection.hasId c i = true := by
        unfold Collection.hasId
        rw [List.any_eq_true]
        exact ⟨e, he, hcon⟩
      rw [hhas] at h2
      exact absurd h2 (by simp)
    rw [h1]
    simp

theorem upsert_then_get_witness :
    Collection.get ⟨"t", [⟨"a", "new", [], [0]⟩]⟩ (some ["a"]) = [⟨"a", "new", [], [0]⟩] :=
  (upsert_then_get (fun _ => some [(0 : Int)]) ⟨"t", [⟨"a", "old", [], [0]⟩]⟩
    ⟨"t", [⟨"a", "new", [], [0]⟩]⟩ "a" "new" [] [0] rfl (by decide) (by rfl)).1

/-! ### Helper lemmas: delete -/

theorem contains_iff_mem (l : List String) (a : String) : l.contains a = true ↔ a ∈ l :=
  List.elem_iff

theorem contains_false_iff (l : List String) (a : String) : l.contains a = false ↔ a ∉ l := by
  rw [Bool.eq_false_iff]
  exact not_congr (contains_iff_mem l a)

theorem hasId_iff_mem (c : Collection) (s : String) :
    c.hasId s = true ↔ s ∈ c.docs.map Document.id := by
  unfold Collection.hasId
  rw [List.any_eq_true]
  constructor
  · rintro ⟨d, hd, he⟩
    exact List.mem_map.mpr ⟨d, hd, eq_of_beq he⟩
  · intro h
    rw [List.mem_map] at h
    obtain ⟨d, hd, he⟩ := h
    exact ⟨d, hd, by simp [he]⟩

theorem hasId_eq_contains (c : Collection) (s : String) :
    c.hasId s = (c.docs.map Document.id).contains s := by
  by_cases h : s ∈ c.docs.map Document.id
  · rw [(hasId_iff_mem c s).mpr h, eq_comm]
    exact (contains_iff_mem _ _).mpr h
  · have h1 : c.hasId s = false := by
      cases hh : c.hasId s
      · rfl
      · exact absurd ((hasId_iff_mem c s).mp hh) h
    rw [h1, eq_comm]
    exact (contains_false_iff _ _).mpr h

theorem length_filter_not_add {α : Type} (q : α → Bool) (l : List α) :
    (l.filter (fun a => !(q a))).length + (l.filter q).length = l.length := by
  induction l with
  | nil => rfl
  | cons a t ih =>
    cases hq : q a <;> simp [List.filter, hq, ← ih] <;> omega

theorem length_filter_mem_comm (l₁ l₂ : List String) (h₁ : l₁.Nodup) (h₂ : l₂.Nodup) :
    (l₁.filter (fun a => l₂.contains a)).length
      = (l₂.filter (fun a => l₁.contains a)).length := by
  have key : ∀ (u v : List String), u.Nodup →
      (u.filter (fun a => v.contains a)).length = (u.toFinset ∩ v.toFinset).card := by
    intro u v hu
    rw [← List.toFinset_card_of_nodup (hu.filter _), List.toFinset_filter]
    congr 1
    rw [← Finset.filter_mem_eq_inter]
    apply Finset.filter_congr
    intro x _
    simp only [List.mem_toFinset]
    exact contains_iff_mem v x
  rw [key l₁ l₂ h₁, key l₂ l₁ h₂, Finset.inter_comm]

/-- C3: deleting a list of ids removes exactly the matching documents:
`get([i])` for a deleted id is empty afterwards (first conjunct), the count
decreases by exactly the number of stored documents whose id was given
(second conjunct), that number equals the number of given ids that existed
(third conjunct), and ids not present are silently ignored — deleting only
absent ids is a no-op, never an error (fourth conjunct; `del` is total by
type, so no error is possible at all). -/
theorem delete_spec (c : Collection) (ids : List String) (i : String)
    (hnd : (c.docs.map Document.id).Nodup) (hids : ids.Nodup) (hi : i ∈ ids) :
    (c.del ids).get (some [i]) = []
    ∧ (c.del ids).count + (c.docs.filter (fun d => ids.contains d.id)).length = c.count
    ∧ (ids.filter (fun s => c.hasId s)).length
        = (c.docs.filter (fun d => ids.contains d.id)).length
    ∧ ((∀ s ∈ ids, c.hasId s = false) → c.del ids = c) := by
  refine ⟨?_, ?_, ?_, ?_⟩
  · show List.filter _ _ = _
    rw [List.filter_eq_nil_iff]
    intro d hd
    have hd2 : d ∈ c.docs.filter (fun e => !(ids.contains e.id)) := hd
    rw [List.mem_filter] at hd2
    have hdni : d.id ∉ ids := by
      rw [← contains_false_iff]
      have := hd2.2
      cases hq : ids.contains d.id
      · rfl
      · rw [hq] at this; exact absurd this (by simp)
    rw [contains_singleton]
    intro hcon
    exact hdni (by rw [eq_of_beq hcon]; exact hi)
  · exact length_filter_not_add _ _
  · rw [List.filter_congr (fun s _ => hasId_eq_contains c s)]
    rw [length_filter_mem_comm ids (c.docs.map Document.id) hids hnd]
    rw [List.filter_map, List.length_map]
    apply congrArg
    apply List.filter_congr
    intro d _
    rfl
  · intro habs
    have hdocs : c.docs.filter (fun d => !(ids.contains d.id)) = c.docs := by
      rw [List.filter_eq_self]
      intro d hd
      have hfalse : ids.contains d.id = false := by
        rw [contains_false_iff]
        intro hmem
        have h3 : c.hasId d.id = true :=
          (hasId_iff_mem c d.id).mpr (List.mem_map_of_mem _ hd)
        rw [habs d.id hmem] at h3
        exact absurd h3 (by simp)
      rw [hfalse]
      rfl
    unfold Collection.del
    rw [hdocs]

theorem delete_spec_witness :
    (Collection.del ⟨"t", [⟨"a", "x", [], [0]⟩, ⟨"b", "y", [], [1]⟩]⟩ ["a", "z"]).get
      (some ["a"]) = [] :=
  (delete_spec ⟨"t", [⟨"a", "x", [], [0]⟩, ⟨"b", "y", [], [1]⟩]⟩ ["a", "z"] "a"
    (by decide) (by decide) (by decide)).1

/-! ### Helper lemmas: add -/

theorem mkDocs_map_id (ids : List String) :
    ∀ (texts : List String) (metas : List Metadata) (vs : List (List Int)),
    texts.length = ids.length → metas.length = ids.length → vs.length = ids.length →
    (mkDocs ids texts metas vs).map Document.id = ids := by
  induction ids with
  | nil => intro texts metas vs _ _ _; rfl
  | cons i is ih =>
    intro texts metas vs h1 h2 h3
    cases texts with
    | nil => simp at h1
    | cons t ts =>
      cases metas with
      | nil => simp at h2
      | cons m ms =>
        cases vs with
        | nil => simp at h3
        | cons v vv =>
          simp only [mkDocs, List.map_cons]
          rw [ih ts ms vv (by simpa using h1) (by simpa using h2) (by simpa using h3)]

/-- C4: `add` fails with AlreadyExists exactly when a given id already
exists (first conjunct), fails with EmbeddingFailure when no id collides
but embedding fails (second conjunct) — and in either failure no new
collection state is produced, so the collection is unchanged; when no id
collides and embedding succeeds the whole batch is appended (third
conjunct); every successful add is of exactly that batch-appending shape
(fourth conjunct, atomicity), and the appended batch carries all the given
ids (inside the fourth conjunct). -/
theorem add_spec (p : Provider) (c : Collection) (ids texts : List String)
    (metas : List Metadata) :
    ((ids.any (fun i => c.hasId i)) = true →
        c.add p ids texts metas = .error .alreadyExists)
    ∧ ((ids.any (fun i => c.hasId i)) = false → embedTexts p texts = none →
        c.add p ids texts metas = .error .embeddingFailure)
    ∧ (∀ vs, (ids.any (fun i => c.hasId i)) = false → embedTexts p texts = some vs →
        c.add p ids texts metas = .ok { c with docs := c.docs ++ mkDocs ids texts metas vs })
    ∧ (∀ c2, c.add p ids texts metas = .ok c2 →
        (ids.any (fun i => c.hasId i)) = false
        ∧ ∃ vs, embedTexts p texts = some vs
            ∧ c2.docs = c.docs ++ mkDocs ids texts metas vs
            ∧ (texts.length = ids.length → metas.length = ids.length →
                (mkDocs ids texts metas vs).map Document.id = ids)) := by
  unfold Collection.add
  refine ⟨?_, ?_, ?_, ?_⟩
  · intro h
    rw [if_pos h]
  · intro h he
    rw [if_neg (by simp [h]), he]
  · intro vs h he
    rw [if_neg (by simp [h]), he]
  · intro c2 h
    by_cases hcol : (ids.any (fun i => c.hasId i)) = true
    · rw [if_pos hcol] at h
      exact absurd h (by simp)
    · rw [Bool.not_eq_true] at hcol
      rw [if_neg (by simp [hcol])] at h
      refine ⟨hcol, ?_⟩
      cases he : embedTexts p texts with
      | none =>
        rw [he] at h
        exact absurd h (by simp)
      | some vs =>
        rw [he] at h
        simp only [Except.ok.injEq] at h
        subst h
        refine ⟨vs, rfl, rfl, ?_⟩
        intro h1 h2
        have hv := embedTexts_length p texts vs he
        exact mkDocs_map_id ids texts metas vs h1 h2 (by omega)

theorem add_spec_witness :
    Collection.add (fun _ => none) ⟨"t", [⟨"a", "x", [], [0]⟩]⟩ ["a"] ["y"] [[]]
      = .error .alreadyExists :=
  (add_spec (fun _ => none) ⟨"t", [⟨"a", "x", [], [0]⟩]⟩ ["a"] ["y"] [[]]).1 (by decide)

/-- C6: `get_or_create(name)` is idempotent — calling it a second time with
the same name returns the same collection and the same registry (first
conjunct), so it creates no new collection (second conjunct: the
collection-list length is unchanged) and leaves the returned collection's
documents unchanged (third conjunct). -/
theorem getOrCreate_idem (r : Registry) (n : String) :
    ((r.getOrCreate n).2.getOrCreate n) = r.getOrCreate n
    ∧ ((r.getOrCreate n).2.getOrCreate n).2.colls.length = (r.getOrCreate n).2.colls.length
    ∧ ((r.getOrCreate n).2.getOrCreate n).1.docs = (r.getOrCreate n).1.docs := by
  have h1 : ((r.getOrCreate n).2.getOrCreate n) = r.getOrCreate n := by
    cases hf : r.findColl n with
    | some c =>
      have e1 : r.getOrCreate n = (c, r) := by
        unfold Registry.getOrCreate
        rw [hf]
      rw [e1]
      exact e1
    | none =>
      have e1 : r.getOrCreate n = (⟨n, []⟩, ⟨r.colls ++ [⟨n, []⟩]⟩) := by
        unfold Registry.getOrCreate
        rw [hf]
      have hf2 : (Registry.mk (r.colls ++ [⟨n, []⟩])).findColl n
          = some ⟨n, []⟩ := by
        unfold Registry.findColl at hf ⊢
        rw [List.find?_append, hf]
        simp [List.find?]
      have e2 : (Registry.mk (r.colls ++ [⟨n, []⟩])).getOrCreate n
          = (⟨n, []⟩, ⟨r.colls ++ [⟨n, []⟩]⟩) := by
        unfold Registry.getOrCreate
        rw [hf2]
      rw [e1]
      exact e2
  exact ⟨h1, by rw [h1], by rw [h1]⟩

/-! ### Helper lemmas: modify -/

theorem hasColl_false_forall (r : Registry) (n : String) (h : r.hasColl n = false) :
    ∀ e ∈ r.colls, (e.name == n) = false := by
  intro e he
  cases hb : e.name == n
  · rfl
  · have h2 : r.hasColl n = true := by
      unfold Registry.hasColl
      rw [List.any_eq_true]
      exact ⟨e, he, hb⟩
    rw [h] at h2
    exact absurd h2 (by simp)

theorem find?_rename (colls : List Collection) (oldN newN : String) (c : Collection)
    (hold : colls.find? (fun e => e.name == oldN) = some c)
    (hnew : ∀ e ∈ colls, (e.name == newN) = false) :
    (colls.map (fun e => if e.name == oldN then { e with name := newN } else e)).find?
      (fun e => e.name == newN) = some { c with name := newN } := by
  induction colls with
  | nil => simp at hold
  | cons e rest ih =>
    by_cases he : (e.name == oldN) = true
    · simp only [List.find?, he] at hold
      have hc : e = c := by simpa using hold
      subst hc
      simp only [List.map_cons, if_pos he, List.find?]
      have hb : (({ e with name := newN } : Collection).name == newN) = true := by simp
      rw [hb]
    · have he2 : (e.name == oldN) = false := by simpa using he
      simp only [List.find?, he2] at hold
      simp only [List.map_cons, if_neg he, List.find?,
        hnew e (List.mem_cons_self e rest)]
      exact ih hold (fun x hx => hnew x (List.mem_cons_of_mem e hx))

theorem find?_rename_old_none (colls : List Collection) (oldN newN : String)
    (hne : (newN == oldN) = false) :
    (colls.map (fun e => if e.name == oldN then { e with name := newN } else e)).find?
      (fun e => e.name == oldN) = none := by
  rw [List.find?_eq_none]
  intro x hx
  rw [List.mem_map] at hx
  obtain ⟨e, he, hfe⟩ := hx
  by_cases h : (e.name == oldN) = true
  · rw [if_pos h] at hfe
    subst hfe
    simpa using hne
  · rw [if_neg h] at hfe
    subst hfe
    simpa using h

/-- C7: `modify(name)` fails with AlreadyExists when the new name collides
with an existing collection (first conjunct); otherwise it renames in
place (second conjunct), after which the collection is reachable under the
new name (third conjunct) and no longer under the old one (fourth
conjunct), with its documents and count unchanged by the rename (fifth and
sixth conjuncts). -/
theorem modify_spec (r : Registry) (oldN newN : String) (c : Collection)
    (hold : r.findColl oldN = some c) :
    (r.hasColl newN = true → r.modifyName oldN newN = .error .alreadyExists)
    ∧ (r.hasColl newN = false → r.modifyName oldN newN = .ok (r.renameAll oldN newN))
    ∧ (r.hasColl newN = false →
        (r.renameAll oldN newN).findColl newN = some { c with name := newN })
    ∧ (r.hasColl newN = false → (r.renameAll oldN newN).findColl oldN = none)
    ∧ ({ c with name := newN }).docs = c.docs
    ∧ ({ c with name := newN }).count = c.count := by
  have hold2 : r.colls.find? (fun e => e.name == oldN) = some c := hold
  have hcname : (c.name == oldN) = true := by
    have h3 := List.find?_some hold2
    exact h3
  have hcmem : c ∈ r.colls := List.mem_of_find?_eq_some hold2
  refine ⟨?_, ?_, ?_, ?_, rfl, rfl⟩
  · intro h
    unfold Registry.modifyName
    rw [if_pos h]
  · intro h
    unfold Registry.modifyName
    rw [if_neg (by simp [h]), hold]
  · intro h
    exact find?_rename r.colls oldN newN c hold (hasColl_false_forall r newN h)
  · intro h
    apply find?_rename_old_none
    cases hb : newN == oldN
    · rfl
    · have hno : (c.name == newN) = false := hasColl_false_forall r newN h c hcmem
      have h1 : c.name = oldN := eq_of_beq hcname
      have h2 : newN = oldN := eq_of_beq hb
      rw [h1, ← h2] at hno
      simp at hno

theorem modify_spec_witness :
    ((⟨[⟨"a", []⟩]⟩ : Registry).renameAll "a" "b").findColl "b" = some ⟨"b", []⟩ :=
  (modify_spec ⟨[⟨"a", []⟩]⟩ "a" "b" ⟨"a", []⟩ rfl).2.2.1 (by decide)

/-! ### Helper lemmas: collection isolation -/

theorem find?_map_preserve (g : Collection → Collection) (q : Collection → Bool)
    (l : List Collection)
    (h1 : ∀ e, q (g e) = q e) (h2 : ∀ e, q e = true → g e = e) :
    (l.map g).find? q = l.find? q := by
  induction l with
  | nil => rfl
  | cons a t ih =>
    cases hq : q a with
    | true =>
      have hga : q (g a) = true := by rw [h1 a, hq]
      simp only [List.map_cons, List.find?_cons, hga, hq, h2 a hq]
    | false =>
      have hga : q (g a) = false := by rw [h1 a, hq]
      simp only [List.map_cons, List.find?_cons, hga, hq]
      exact ih

theorem withColl_preserves_other (r : Registry) (n n2 : String) (hne : n2 ≠ n)
    (f : Collection → Except DBError Collection)
    (hf : ∀ c c2, f c = .ok c2 → c2.name = c.name)
    (r2 : Registry) (h : r.withColl n f = .ok r2) :
    r2.findColl n2 = r.findColl n2 := by
  unfold Registry.withColl at h
  cases hfind : r.findColl n with
  | none =>
    rw [hfind] at h
    exact absurd h (by simp)
  | some c =>
    rw [hfind] at h
    dsimp only at h
    cases hfc : f c with
    | error e =>
      rw [hfc] at h
      exact absurd h (by simp [Except.map])
    | ok c2 =>
      rw [hfc] at h
      simp only [Except.map, Except.ok.injEq] at h
      subst h
      show Registry.findColl _ n2 = _
      unfold Registry.findColl
      have hcn : c.name = n := by
        have h3 := List.find?_some (show r.colls.find? (fun e => e.name == n) = some c
          from hfind)
        exact eq_of_beq h3
      apply find?_map_preserve
      · intro e
        by_cases he : (e.name == n) = true
        · rw [if_pos he]
          have hc2 : c2.name = c.name := hf c c2 hfc
          rw [hc2, hcn, eq_of_beq he]
        · rw [if_neg he]
      · intro e hq
        have hen : (e.name == n) = false := by
          cases hb : e.name == n
          · rfl
          · exact absurd (eq_of_beq hq ▸ eq_of_beq hb) hne
        simp [hen]

theorem add_preserves_name (p : Provider) (ids texts : List String) (metas : List Metadata)
    (c c2 : Collection) (h : c.add p ids texts metas = .ok c2) : c2.name = c.name := by
  unfold Collection.add at h
  split at h
  · exact absurd h (by simp)
  · split at h
    · exact absurd h (by simp)
    · simp only [Except.ok.injEq] at h
      subst h
      rfl

theorem upsertDoc_name (c : Collection) (d : Document) : (c.upsertDoc d).name = c.name := by
  unfold Collection.upsertDoc
  split <;> rfl

theorem foldl_upsertDoc_name (ds : List Document) (c : Collection) :
    (ds.foldl Collection.upsertDoc c).name = c.name := by
  induction ds generalizing c with
  | nil => rfl
  | cons d ds ih =>
    rw [List.foldl_cons, ih, upsertDoc_name]

theorem upsert_preserves_name (p : Provider) (ids texts : List String)
    (metas : List Metadata) (c c2 : Collection)
    (h : c.upsert p ids texts metas = .ok c2) : c2.name = c.name := by
  unfold Collection.upsert at h
  split at h
  · exact absurd h (by simp)
  · simp only [Except.ok.injEq] at h
    subst h
    exact foldl_upsertDoc_name _ _

theorem find?_filter_ne (l : List Collection) (n n2 : String) (hne : n2 ≠ n) :
    (l.filter (fun c => c.name != n)).find? (fun c => c.name == n2)
      = l.find? (fun c => c.name == n2) := by
  induction l with
  | nil => rfl
  | cons a t ih =>
    by_cases ha : (a.name == n2) = true
    · have han : (a.name != n) = true := by
        rw [bne_iff_ne, eq_of_beq ha]
        exact hne
      simp only [List.filter_cons, han, if_true, List.find?_cons, ha]
    · have ha2 : (a.name == n2) = false := by simpa using ha
      by_cases han : (a.name != n) = true
      · simp only [List.filter_cons, han, if_true, List.find?_cons, ha2]
        exact ih
      · have han2 : (a.name != n) = false := by simpa using han
        simp only [List.filter_cons, han2, Bool.false_eq_true, if_false, List.find?_cons, ha2]
        exact ih

/-- C10: collections are isolated — an `add`, `upsert` or `delete` through
the registry on collection `n` leaves lookup of any other collection `n2`
unchanged (first three conjuncts), a `query` leaves the registry itself
unchanged (fourth conjunct), and deleting collection `n` leaves lookup of
any other collection unchanged (fifth conjunct). -/
theorem isolation_spec (p : Provider) (r : Registry) (n n2 : String) (hne : n2 ≠ n) :
    (∀ ids texts metas r2, r.addDocs p n ids texts metas = .ok r2 →
        r2.findColl n2 = r.findColl n2)
    ∧ (∀ ids texts metas r2, r.upsertDocs p n ids texts metas = .ok r2 →
        r2.findColl n2 = r.findColl n2)
    ∧ (∀ ids r2, r.deleteDocs n ids = .ok r2 → r2.findColl n2 = r.findColl n2)
    ∧ (∀ ts k res r2, r.queryDocs p n ts k = .ok (res, r2) → r2 = r)
    ∧ (∀ r2, r.deleteColl n = .ok r2 → r2.findColl n2 = r.findColl n2) := by
  refine ⟨?_, ?_, ?_, ?_, ?_⟩
  · intro ids texts metas r2 h
    exact withColl_preserves_other r n n2 hne _
      (fun c c2 hc => add_preserves_name p ids texts metas c c2 hc) r2 h
  · intro ids texts metas r2 h
    exact withColl_preserves_other r n n2 hne _
      (fun c c2 hc => upsert_preserves_name p ids texts metas c c2 hc) r2 h
  · intro ids r2 h
    exact withColl_preserves_other r n n2 hne _
      (fun c c2 hc => by
        simp only [Except.ok.injEq] at hc
        subst hc
        rfl) r2 h
  · intro ts k res r2 h
    unfold Registry.queryDocs at h
    cases hfind : r.findColl n with
    | none =>
      rw [hfind] at h
      exact absurd h (by simp)
    | some c =>
      rw [hfind] at h
      dsimp only at h
      cases hq : c.query p ts k with
      | error e =>
        rw [hq] at h
        exact absurd h (by simp [Except.map])
      | ok res2 =>
        rw [hq] at h
        simp only [Except.map, Except.ok.injEq, Prod.mk.injEq] at h
        exact h.2.symm
  · intro r2 h
    unfold Registry.deleteColl at h
    by_cases hcol : r.hasColl n = true
    · rw [if_pos hcol] at h
      simp only [Except.ok.injEq] at h
      subst h
      show Registry.findColl _ n2 = _
      unfold Registry.findColl
      exact find?_filter_ne r.colls n n2 hne
    · rw [if_neg hcol] at h
      exact absurd h (by simp)

theorem isolation_spec_witness :
    (⟨[⟨"b", []⟩]⟩ : Registry).findColl "b"
      = (⟨[⟨"a", []⟩, ⟨"b", []⟩]⟩ : Registry).findColl "b" :=
  (isolation_spec (fun _ => none) ⟨[⟨"a", []⟩, ⟨"b", []⟩]⟩ "a" "b"
    (by decide)).2.2.2.2 ⟨[⟨"b", []⟩]⟩ (by rfl)

/-! ### Persistence -/

/-- Modelled from the spec: the serialized on-disk form — a tree of tagged
scalars, so that registry → collections → documents → vectors round-trip
exactly, including metadata value types (spec section 6). -/
inductive PVal where
  | s (v : String)
  | n (v : Int)
  | b (v : Bool)
  | node (vs : List PVal)

/-- Serialize one metadata value, preserving its scalar type tag. -/
def encodeMeta : MetaValue → PVal
  | .str v => .node [.s "s", .s v]
  | .num v => .node [.s "n", .n v]
  | .boolean v => .node [.s "b", .b v]

/-- Deserialize one metadata value. -/
def decodeMeta : PVal → Option MetaValue
  | .node [.s "s", .s v] => some (.str v)
  | .node [.s "n", .n v] => some (.num v)
  | .node [.s "b", .b v] => some (.boolean v)
  | _ => none

/-- Deserialize a list, failing when any element fails. -/
def decodeList {α : Type} (f : PVal → Option α) : List PVal → Option (List α)
  | [] => some []
  | x :: xs =>
    match f x, decodeList f xs with
    | some a, some ys => some (a :: ys)
    | _, _ => none

/-- Serialize a metadata key/value pair. -/
def encodePair (kv : String × MetaValue) : PVal :=
  .node [.s kv.1, encodeMeta kv.2]

/-- Deserialize a metadata key/value pair. -/
def decodePair : PVal → Option (String × MetaValue)
  | .node [.s k, m] => (decodeMeta m).map (fun v => (k, v))
  | _ => none

/-- Deserialize one vector component. -/
def decodeInt : PVal → Option Int
  | .n v => some v
  | _ => none

/-- Serialize a document: id, text, metadata, vector. -/
def encodeDoc (d : Document) : PVal :=
  .node [.s d.id, .s d.text, .node (d.metadata.map encodePair),
    .node (d.vector.map (fun z => PVal.n z))]

/-- Deserialize a document. -/
def decodeDoc : PVal → Option Document
  | .node [.s i, .s t, .node ms, .node vs] =>
    match decodeList decodePair ms, decodeList decodeInt vs with
    | some m, some v => some ⟨i, t, m, v⟩
    | _, _ => none
  | _ => none

/-- Serialize a collection: name and documents. -/
def encodeColl (c : Collection) : PVal :=
  .node [.s c.name, .node (c.docs.map encodeDoc)]

/-- Deserialize a collection. -/
def decodeColl : PVal → Option Collection
  | .node [.s nm, .node ds] => (decodeList decodeDoc ds).map (fun docs => ⟨nm, docs⟩)
  | _ => none

/-- Serialize a whole registry. -/
def encodeReg (r : Registry) : PVal :=
  .node (r.colls.map encodeColl)

/-- Deserialize a whole registry. -/
def decodeReg : PVal → Option Registry
  | .node cs => (decodeList decodeColl cs).map Registry.mk
  | _ => none

/-- Reload a collection from its serialized form (the round trip). -/
def reloadColl (c : Collection) : Collection :=
  (decodeColl (encodeColl c)).getD ⟨"", []⟩

theorem decodeList_map {α : Type} (f : PVal → Option α) (g : α → PVal) (l : List α)
    (h : ∀ a ∈ l, f (g a) = some a) : decodeList f (l.map g) = some l := by
  induction l with
  | nil => rfl
  | cons a t ih =>
    simp only [List.map_cons, decodeList]
    rw [h a (List.mem_cons_self a t), ih (fun x hx => h x (List.mem_cons_of_mem a hx))]

theorem decodeMeta_encodeMeta (m : MetaValue) : decodeMeta (encodeMeta m) = some m := by
  cases m <;> rfl

theorem decodePair_encodePair (kv : String × MetaValue) :
    decodePair (encodePair kv) = some kv := by
  obtain ⟨k, v⟩ := kv
  simp only [encodePair, decodePair, decodeMeta_encodeMeta, Option.map_some']

theorem decodeDoc_encodeDoc (d : Document) : decodeDoc (encodeDoc d) = some d := by
  obtain ⟨i, t, m, v⟩ := d
  simp only [encodeDoc, decodeDoc]
  rw [decodeList_map decodePair encodePair m (fun a _ => decodePair_encodePair a),
    decodeList_map decodeInt (fun z => PVal.n z) v (fun a _ => rfl)]

theorem decodeColl_encodeColl (c : Collection) : decodeColl (encodeColl c) = some c := by
  obtain ⟨nm, ds⟩ := c
  simp only [encodeColl, decodeColl]
  rw [decodeList_map decodeDoc encodeDoc ds (fun a _ => decodeDoc_encodeDoc a)]
  rfl

/-- C5: persisting a collection and reloading it yields the identical
collection — same ids, texts, metadata including metadata value types, and
vectors (first conjunct); likewise for a whole registry (second conjunct);
consequently the reloaded collection has the same document set (third
conjunct) and identical query results for any fixed query text (fourth
conjunct). -/
theorem persist_roundtrip (c : Collection) (r : Registry) :
    decodeColl (encodeColl c) = some c
    ∧ decodeReg (encodeReg r) = some r
    ∧ (reloadColl c).docs = c.docs
    ∧ (∀ p ts k, (reloadColl c).query p ts k = c.query p ts k) := by
  have hreload : reloadColl c = c := by
    unfold reloadColl
    rw [decodeColl_encodeColl]
    rfl
  refine ⟨decodeColl_encodeColl c, ?_, by rw [hreload], fun p ts k => by rw [hreload]⟩
  obtain ⟨cs⟩ := r
  simp only [encodeReg, decodeReg]
  rw [decodeList_map decodeColl encodeColl cs (fun a _ => decodeColl_encodeColl a)]
  rfl

/-! ### The step3 scenario -/

/-- The four document ids added by src/step3_crud_operations.py. -/
def ids4 : List String :=
  ["flight_policy_01", "hotel_policy_01", "rental_car_policy_01", "flight_policy_02"]

/-- The step3 query text. -/
def qText : String := "What is the policy for international flights?"

theorem mem_search_id (c : Collection) (qv : List Int) (k : Int) (x : String × Int)
    (hx : x ∈ VectorIndex.search c.index qv k) : x.1 ∈ c.docs.map Document.id := by
  have h1 : x ∈ (annotate c.index qv).insertionSort distLE :=
    List.mem_of_mem_take hx
  have h2 : x ∈ annotate c.index qv := (List.perm_insertionSort distLE _).mem_iff.mp h1
  unfold annotate Collection.index at h2
  rw [List.map_map, List.mem_map] at h2
  obtain ⟨d, hd, hdx⟩ := h2
  rw [List.mem_map]
  refine ⟨d, hd, ?_⟩
  rw [← hdx]
  rfl

/-- C8: starting from an empty collection, after adding exactly the four
step3 documents (ids `ids4`, any texts and metadata the provider can
embed), the step3 query with `n_results = 2` returns exactly one
QueryResult (first conjunct) holding exactly 2 entries (second conjunct),
whose ids are all drawn from the four inserted ids (third conjunct),
ordered by ascending distance (fourth conjunct). -/
theorem scenario_spec (p : Provider) (t1 t2 t3 t4 : String) (m1 m2 m3 m4 : Metadata)
    (c2 : Collection) (res : List (List QEntry))
    (hadd : (⟨"travel_policies", []⟩ : Collection).add p ids4 [t1, t2, t3, t4]
        [m1, m2, m3, m4] = .ok c2)
    (hq : c2.query p [qText] 2 = .ok res) :
    res.length = 1
    ∧ ∀ qr ∈ res, qr.length = 2
        ∧ (∀ e ∈ qr, e.id ∈ ids4)
        ∧ List.Sorted (fun a b : QEntry => a.distance ≤ b.distance) qr := by
  unfold Collection.add at hadd
  rw [if_neg (by decide)] at hadd
  cases he : embedTexts p [t1, t2, t3, t4] with
  | none =>
    rw [he] at hadd
    exact absurd hadd (by simp)
  | some vs =>
    rw [he] at hadd
    simp only [Except.ok.injEq] at hadd
    have hvlen : vs.length = 4 := embedTexts_length p [t1, t2, t3, t4] vs he
    have hids : c2.docs.map Document.id = ids4 := by
      rw [← hadd]
      exact mkDocs_map_id ids4 [t1, t2, t3, t4] [m1, m2, m3, m4] vs
        (by simp [ids4]) (by simp [ids4]) (by simp [ids4, hvlen])
    have hdlen : c2.docs.length = 4 := by
      have h4 := congrArg List.length hids
      rw [List.length_map] at h4
      simpa [ids4] using h4
    unfold Collection.query at hq
    cases hqe : embedTexts p [qText] with
    | none =>
      rw [hqe] at hq
      exact absurd hq (by simp)
    | some qvs =>
      rw [hqe] at hq
      simp only [Except.ok.injEq] at hq
      subst hq
      have hqlen : qvs.length = 1 := embedTexts_length p [qText] qvs hqe
      constructor
      · rw [List.length_map, hqlen]
      · intro qr hqr
        rw [List.mem_map] at hqr
        obtain ⟨qv, _, hqv⟩ := hqr
        subst hqv
        refine ⟨?_, ?_, ?_⟩
        · rw [List.length_map, search_length]
          have hilen : c2.index.length = 4 := by
            unfold Collection.index
            rw [List.length_map, hdlen]
          rw [hilen]
          rfl
        · intro e he2
          rw [List.mem_map] at he2
          obtain ⟨x, hx, hxe⟩ := he2
          subst hxe
          rw [toQEntry_id]
          rw [← hids]
          exact mem_search_id c2 qv 2 x hx
        · exact List.Pairwise.map _
            (fun a b hab => by simpa [toQEntry_distance] using hab)
            (search_sorted c2.index qv 2)

theorem scenario_spec_witness :
    ([[({ id := "flight_policy_02", distance := 1681, metadata := [], text := "dddd" } : QEntry),
       { id := "rental_car_policy_01", distance := 1764, metadata := [], text := "ccc" }]]
      : List (List QEntry)).length = 1 :=
  (scenario_spec (fun t => some [(t.length : Int)]) "a" "bb" "ccc" "dddd" [] [] [] []
    ⟨"travel_policies",
      [⟨"flight_policy_01", "a", [], [1]⟩, ⟨"hotel_policy_01", "bb", [], [2]⟩,
       ⟨"rental_car_policy_01", "ccc", [], [3]⟩, ⟨"flight_policy_02", "dddd", [], [4]⟩]⟩
    [[⟨"flight_policy_02", 1681, [], "dddd"⟩, ⟨"rental_car_policy_01", 1764, [], "ccc"⟩]]
    (by rfl) (by rfl)).1
